import Mathlib

/-!
Shallow embedding of the document-comparison core of this repository:
the diff segmenter in `src/app/components/document-comparator.tsx`
(`advanceCursor`, `addSegmentsForText`, `performComparison`,
`readFileContent`, `compareKey`) and the line-anchored renderer in
`src/app/components/document-viewer.tsx` (`segmentsByLine` and the
per-line run construction in `DocumentViewer`).

Strings are embedded as `List Char`.  JavaScript numbers are embedded as
`Int` for (line, column) coordinates (the source never produces
fractional values there) and as `Nat` for ids and lengths.
-/

namespace Wdct

/-- Embedding of JavaScript `text.split("\n")`: the list of chunks of
`text` delimited by newline characters.  `splitNl [] = [[]]`, matching
`"".split("\n") = [""]`. -/
def splitNl : List Char → List (List Char)
  | [] => [[]]
  | c :: rest =>
    if c = '\n' then [] :: splitNl rest
    else (c :: (splitNl rest).headD []) :: (splitNl rest).tail

/-- The side a diff run belongs to: document A (deletions) or B (additions). -/
inductive Side
  | A
  | B
deriving DecidableEq, Repr

/-- The `type` field of segments and report items. -/
inductive SegType
  | addition
  | deletion
deriving DecidableEq, Repr

/-- Embedding of `DifferenceSegment` from `document-comparator.tsx`: a single-line
highlighted run anchored at 0-based (line, startCol), `endCol` exclusive. -/
structure DifferenceSegment where
  id : Nat
  type : SegType
  line : Int
  startCol : Int
  endCol : Int
  text : List Char
deriving DecidableEq, Repr

/-- Embedding of `DiffItem` (report item).  The source stores `position` as the
formatted string `第 ${line+1} 行，第 ${col+1} 字符`; here the two numbers
that build that string are kept as `posLine = line+1`, `posChar = col+1`. -/
structure DiffItem where
  id : Nat
  type : SegType
  textA : List Char
  textB : List Char
  posLine : Int
  posChar : Int
deriving DecidableEq, Repr

/-- Embedding of `Cursor` from `performComparison`: a (line, column) position. -/
structure Cursor where
  line : Int
  col : Int
deriving DecidableEq, Repr

/-- Embedding of `advanceCursor` from `document-comparator.tsx`: advance a cursor
over `text`.  No newline: the column grows by `text.length`; otherwise
the line grows by the number of newlines and the column becomes the
length of the text after the last newline. -/
def advanceCursor (cursor : Cursor) (text : List Char) : Cursor :=
  let parts := splitNl text
  if parts.length = 1 then { cursor with col := cursor.col + text.length }
  else { line := cursor.line + ((parts.length : Int) - 1),
         col := ((parts.getLastD []).length : Int) }

/-- The ellipsis marker `"..."` appended to truncated previews. -/
def ellipsisMarker : List Char := ['.', '.', '.']

/-- The preview text pushed into a report item:
`chunk.substring(0, 50) + (chunk.length > 50 ? "..." : "")`. -/
def previewOf (chunk : List Char) : List Char :=
  chunk.take 50 ++ (if 50 < chunk.length then ellipsisMarker else [])

/-- Result of one `addSegmentsForText` call: the report items and
segments it appends, the final local (line, col) of its emission loop,
and the returned next id. -/
structure EmitResult where
  items : List DiffItem
  segs : List DifferenceSegment
  line : Int
  col : Int
  nextId : Nat
deriving DecidableEq, Repr

/-- The `lines.forEach` loop body of `addSegmentsForText`, recursing over
the chunk list: a non-empty chunk emits one report item and one segment
at the current (line, col) and takes the next id; after each chunk the
position moves to the next line at column 0 unless the chunk is the last,
in which case the chunk length is added to the column. -/
def emitChunks (which : Side) : List (List Char) → Int → Int → Nat → EmitResult
  | [], line, col, nextId => ⟨[], [], line, col, nextId⟩
  | chunk :: rest, line, col, nextId =>
    let r := emitChunks which rest
      (if rest = [] then line else line + 1)
      (if rest = [] then col + (chunk.length : Int) else 0)
      (if 0 < chunk.length then nextId + 1 else nextId)
    { items :=
        (if 0 < chunk.length then
          [{ id := nextId,
             type := if which = Side.A then SegType.deletion else SegType.addition,
             textA := if which = Side.A then previewOf chunk else [],
             textB := if which = Side.B then previewOf chunk else [],
             posLine := line + 1, posChar := col + 1 }]
         else []) ++ r.items,
      segs :=
        (if 0 < chunk.length then
          [{ id := nextId,
             type := if which = Side.A then SegType.deletion else SegType.addition,
             line := line, startCol := col, endCol := col + (chunk.length : Int),
             text := chunk }]
         else []) ++ r.segs,
      line := r.line, col := r.col, nextId := r.nextId }

/-- Embedding of `addSegmentsForText` from `performComparison`: split `text` on
newlines and emit items/segments chunk by chunk from `baseCursor`,
starting at id `startingId`. -/
def addSegmentsForText (which : Side) (text : List Char) (baseCursor : Cursor)
    (startingId : Nat) : EmitResult :=
  emitChunks which (splitNl text) baseCursor.line baseCursor.col startingId

/-- A raw diff operation as returned by the external diff capability:
`-1` (delete), `1` (insert) or `0` (equal), with its text. -/
inductive DiffOp
  | delete (text : List Char)
  | insert (text : List Char)
  | equal (text : List Char)
deriving DecidableEq, Repr

/-- The accumulated state of the `diffs.forEach` loop in
`performComparison`: the three output lists, both cursors and the id
counter. -/
structure CompareState where
  diffItems : List DiffItem
  diffsA : List DifferenceSegment
  diffsB : List DifferenceSegment
  cursorA : Cursor
  cursorB : Cursor
  diffId : Nat
deriving DecidableEq, Repr

/-- One iteration of the `diffs.forEach` loop: a delete op emits on side
A from `cursorA` and then advances `cursorA`; an insert op does the same
on side B; an equal op advances both cursors and emits nothing. -/
def stepDiff (s : CompareState) (op : DiffOp) : CompareState :=
  match op with
  | DiffOp.delete text =>
    let r := addSegmentsForText Side.A text s.cursorA s.diffId
    { s with diffItems := s.diffItems ++ r.items,
             diffsA := s.diffsA ++ r.segs,
             cursorA := advanceCursor s.cursorA text,
             diffId := r.nextId }
  | DiffOp.insert text =>
    let r := addSegmentsForText Side.B text s.cursorB s.diffId
    { s with diffItems := s.diffItems ++ r.items,
             diffsB := s.diffsB ++ r.segs,
             cursorB := advanceCursor s.cursorB text,
             diffId := r.nextId }
  | DiffOp.equal text =>
    { s with cursorA := advanceCursor s.cursorA text,
             cursorB := advanceCursor s.cursorB text }

/-- The initial loop state: empty outputs, both cursors at (0, 0), id 1. -/
def initCompareState : CompareState :=
  ⟨[], [], [], ⟨0, 0⟩, ⟨0, 0⟩, 1⟩

/-- The whole segmentation pass of `performComparison` over a diff
sequence. -/
def segmentDiffs (ops : List DiffOp) : CompareState :=
  ops.foldl stepDiff initCompareState

/-- The component state that `performComparison` writes at the end of a
pass (`setDifferences`, `setDifferencesA`, `setDifferencesB`). -/
structure ComparatorState where
  differences : List DiffItem
  differencesA : List DifferenceSegment
  differencesB : List DifferenceSegment
deriving DecidableEq, Repr

/-- The component state before any comparison has run. -/
def emptyComparatorState : ComparatorState := ⟨[], [], []⟩

/-- Embedding of `performComparison` from `document-comparator.tsx` as a state
transformer: `if (!contentA || !contentB) return;` keeps the prior
state; otherwise the diff capability `diffFn` is invoked on the two
contents and the segmentation pass result replaces the state. -/
def performComparison (diffFn : List Char → List Char → List DiffOp)
    (contentA contentB : List Char) (prior : ComparatorState) : ComparatorState :=
  if contentA = [] ∨ contentB = [] then prior
  else
    let r := segmentDiffs (diffFn contentA contentB)
    ⟨r.diffItems, r.diffsA, r.diffsB⟩

/-- Embedding of `file.name.split(".").pop()?.toLowerCase()` from `readFileContent`:
the text after the last dot of the file name (the whole name when there
is no dot), lowercased. -/
def fileExtension (name : List Char) : List Char :=
  ((name.splitOn '.').getLastD []).map Char.toLower

/-- The fixed placeholder returned for PDF files
(`暂不支持PDF格式的详细对比，请转换为TXT或DOCX格式`). -/
def unsupportedPlaceholder : List Char :=
  "暂不支持PDF格式的详细对比，请转换为TXT或DOCX格式".toList

/-- Embedding of `readFileContent` from `document-comparator.tsx`.  The external
extraction collaborators are passed in: `rawText` stands for
`file.text()` and `extractedText` for `mammoth.extractRawText(...)`.
A `txt` file yields the raw text, `docx`/`doc` the extracted text,
`pdf` the fixed placeholder, and any other extension the empty string. -/
def readFileContent (name : List Char) (rawText extractedText : List Char) :
    List Char :=
  let fileType := fileExtension name
  if fileType = "txt".toList then rawText
  else if fileType = "docx".toList ∨ fileType = "doc".toList then extractedText
  else if fileType = "pdf".toList then unsupportedPlaceholder
  else []

/-- The metadata triple `${file.name}:${file.size}:${file.lastModified}`
used by `compareKey`; `none` stands for the `"noA"`/`"noB"` case. -/
structure FileMeta where
  name : List Char
  size : Nat
  lastModified : Nat
deriving DecidableEq, Repr

/-- The content fingerprint `${content.length}:${content.slice(0, 32)}`
of one document inside `compareKey`. -/
def contentSig (content : List Char) : Nat × List Char :=
  (content.length, content.take 32)

/-- Embedding of `compareKey` from `document-comparator.tsx`: the comparison key is
built only from both files' metadata and both contents' fingerprints
(length and first 32 characters).  Equal components produce an equal
key string in the source, so key equality is modelled as equality of
the component tuple. -/
def compareKey (fileA fileB : Option FileMeta) (contentA contentB : List Char) :
    Option FileMeta × Option FileMeta × (Nat × List Char) × (Nat × List Char) :=
  (fileA, fileB, contentSig contentA, contentSig contentB)

/-- The recomputation guard of the comparison effect:
`if (lastComparedKeyRef.current === compareKey) return;` — a new pass
is triggered exactly when the key differs from the last compared key. -/
def triggersRecomputation
    (lastKey key : Option FileMeta × Option FileMeta × (Nat × List Char) × (Nat × List Char)) :
    Bool :=
  if lastKey = key then false else true

/-! ## Renderer (`document-viewer.tsx`) -/

/-- One rendered run of a line: plain text, or a highlighted segment run
carrying its segment's id and type. -/
inductive Piece
  | plain (text : List Char)
  | highlight (id : Nat) (ty : SegType) (text : List Char)
deriving DecidableEq, Repr

/-- The text carried by a rendered piece. -/
def pieceText : Piece → List Char
  | Piece.plain t => t
  | Piece.highlight _ _ t => t

/-- The concatenation of the texts of a run list. -/
def piecesText (ps : List Piece) : List Char :=
  (ps.map pieceText).flatten

/-- Embedding of `lineText.slice(a, b)` for `0 ≤ a ≤ b ≤ lineText.length`, with the
bound check made explicit: `none` models an out-of-bounds access. -/
def sliceChecked (s : List Char) (a b : Nat) : Option (List Char) :=
  if a ≤ b ∧ b ≤ s.length then some ((s.drop a).take (b - a)) else none

/-- Embedding of `Math.max(0, Math.min(seg.startCol, lineText.length))`. -/
def clampStart (len : Nat) (c : Int) : Nat :=
  (max 0 (min c (len : Int))).toNat

/-- Embedding of `Math.max(start, Math.min(seg.endCol, lineText.length))`. -/
def clampEnd (len : Nat) (start : Nat) (c : Int) : Nat :=
  (max (start : Int) (min c (len : Int))).toNat

/-- The accumulator of the `segs.forEach` walk over one line: the pieces
emitted so far and the current cursor column. -/
structure RenderAcc where
  pieces : List Piece
  cursor : Nat
deriving DecidableEq, Repr

/-- One iteration of the renderer's `segs.forEach`: clip the segment to
the line, emit the plain text between the cursor and the segment when
non-empty, emit the highlighted run when non-empty, and move the cursor
to the clipped end. -/
def renderSeg (lineText : List Char) (acc : RenderAcc) (seg : DifferenceSegment) :
    Option RenderAcc :=
  let len := lineText.length
  let start := clampStart len seg.startCol
  let stop := clampEnd len start seg.endCol
  let step1 : Option (List Piece) :=
    if acc.cursor < start then
      (sliceChecked lineText acc.cursor start).map
        (fun t => acc.pieces ++ [Piece.plain t])
    else some acc.pieces
  match step1 with
  | none => none
  | some ps =>
    if start < stop then
      (sliceChecked lineText start stop).map
        (fun t => ⟨ps ++ [Piece.highlight seg.id seg.type t], stop⟩)
    else some ⟨ps, stop⟩

/-- The full `segs.forEach` walk. -/
def renderSegs (lineText : List Char) :
    List DifferenceSegment → RenderAcc → Option RenderAcc
  | [], acc => some acc
  | s :: ss, acc =>
    match renderSeg lineText acc s with
    | none => none
    | some acc' => renderSegs lineText ss acc'

/-- The run list built for one line: walk the line's segments from a
cursor at column 0, then emit the trailing plain text when the cursor
has not reached the end of the line. -/
def renderLine (lineText : List Char) (segs : List DifferenceSegment) :
    Option (List Piece) :=
  match renderSegs lineText segs ⟨[], 0⟩ with
  | none => none
  | some acc =>
    if acc.cursor < lineText.length then
      (sliceChecked lineText acc.cursor lineText.length).map
        (fun t => acc.pieces ++ [Piece.plain t])
    else some acc.pieces

/-- Stable insertion of a segment into a list sorted by `startCol`
ascending. -/
def insertByStartCol (seg : DifferenceSegment) :
    List DifferenceSegment → List DifferenceSegment
  | [] => [seg]
  | x :: xs =>
    if seg.startCol < x.startCol then seg :: x :: xs
    else x :: insertByStartCol seg xs

/-- Embedding of `arr.sort((a, b) => a.startCol - b.startCol)` as a stable sort. -/
def sortByStartCol (l : List DifferenceSegment) : List DifferenceSegment :=
  l.foldr insertByStartCol []

/-- Embedding of `segmentsByLine.get(lineIdx) ?? []` from `DocumentViewer`: the
segments whose `line` equals the index, sorted by `startCol`.  A segment
whose `line` matches no rendered index is in no group. -/
def segmentsForLine (diffs : List DifferenceSegment) (idx : Nat) :
    List DifferenceSegment :=
  sortByStartCol (diffs.filter (fun s => s.line = (idx : Int)))

/-- The `lines.map((lineText, lineIdx) => ...)` walk: render each line
with its segment group, threading the line index. -/
def renderLinesFrom (diffs : List DifferenceSegment) :
    List (List Char) → Nat → Option (List (List Piece))
  | [], _ => some []
  | l :: ls, idx =>
    match renderLine l (segmentsForLine diffs idx) with
    | none => none
    | some p =>
      match renderLinesFrom diffs ls (idx + 1) with
      | none => none
      | some ps => some (p :: ps)

/-- The whole renderer pass of `DocumentViewer`: split the content into
lines and render each line with its segment group. -/
def renderDocument (content : List Char) (diffs : List DifferenceSegment) :
    Option (List (List Piece)) :=
  renderLinesFrom diffs (splitNl content) 0

/-- The report item that `addSegmentsForText` pushes alongside a given
segment: same id and type, the preview on the emitting side, and the
1-based position numbers taken from the segment's anchor. -/
def segToItem (which : Side) (sg : DifferenceSegment) : DiffItem :=
  { id := sg.id, type := sg.type,
    textA := if which = Side.A then previewOf sg.text else [],
    textB := if which = Side.B then previewOf sg.text else [],
    posLine := sg.line + 1, posChar := sg.startCol + 1 }

/-- Invariant of the `diffs.forEach` loop state in `performComparison`:
report-item ids form the contiguous range `1, 2, ...` in push order, the
id counter sits one past the last assigned id, each side's segment ids
are strictly increasing and bounded by the counter, ids never repeat
across sides, cursor lines stay non-negative, emitted segments have
non-empty single-line extents on non-negative lines, and every segment
has its lockstep report item. -/
structure SInv (s : CompareState) : Prop where
  items_ids : s.diffItems.map (fun it => it.id) = List.range' 1 s.diffItems.length
  diffId_eq : s.diffId = 1 + s.diffItems.length
  idsA : (s.diffsA.map (fun sg => sg.id)).Pairwise (· < ·)
  idsB : (s.diffsB.map (fun sg => sg.id)).Pairwise (· < ·)
  boundA : ∀ sg ∈ s.diffsA, 1 ≤ sg.id ∧ sg.id < s.diffId
  boundB : ∀ sg ∈ s.diffsB, 1 ≤ sg.id ∧ sg.id < s.diffId
  crossAB : ∀ a ∈ s.diffsA, ∀ b ∈ s.diffsB, a.id ≠ b.id
  curA : 0 ≤ s.cursorA.line
  curB : 0 ≤ s.cursorB.line
  posA : ∀ sg ∈ s.diffsA, sg.startCol < sg.endCol ∧ 0 ≤ sg.line
  posB : ∀ sg ∈ s.diffsB, sg.startCol < sg.endCol ∧ 0 ≤ sg.line
  itemA : ∀ sg ∈ s.diffsA, segToItem Side.A sg ∈ s.diffItems
  itemB : ∀ sg ∈ s.diffsB, segToItem Side.B sg ∈ s.diffItems

/-! ## Basic lemmas about `splitNl` and `emitChunks` -/

theorem splitNl_ne_nil (t : List Char) : splitNl t ≠ [] := by
  cases t with
  | nil => simp [splitNl]
  | cons c rest =>
    simp only [splitNl]
    split <;> simp

theorem splitNl_singleton : ∀ {t p : List Char}, splitNl t = [p] → p = t := by
  intro t
  induction t with
  | nil =>
    intro p h
    simp only [splitNl, List.cons.injEq] at h
    exact h.1.symm
  | cons c rest ih =>
    intro p h
    simp only [splitNl] at h
    by_cases hc : c = '\n'
    · rw [if_pos hc] at h
      simp only [List.cons.injEq] at h
      exact absurd h.2 (splitNl_ne_nil rest)
    · rw [if_neg hc] at h
      simp only [List.cons.injEq] at h
      obtain ⟨hp, ht⟩ := h
      obtain ⟨q, hq⟩ : ∃ q, splitNl rest = [q] := by
        cases hr : splitNl rest with
        | nil => exact absurd hr (splitNl_ne_nil rest)
        | cons x xs =>
          rw [hr] at ht
          simp at ht
          exact ⟨x, by rw [ht]⟩
      rw [hq] at hp
      simp only [List.headD_cons] at hp
      rw [ih hq] at hp
      exact hp.symm

theorem getLastD_of_ne_nil {α : Type} :
    ∀ {l : List α}, l ≠ [] → ∀ (d₁ d₂ : α), l.getLastD d₁ = l.getLastD d₂ := by
  intro l
  cases l with
  | nil => intro h; exact absurd rfl h
  | cons a t =>
    intro _ d₁ d₂
    cases t with
    | nil => rfl
    | cons b u => simp only [List.getLastD_cons]

theorem emitChunks_spec (w : Side) :
    ∀ (chunks : List (List Char)) (l c : Int) (i : Nat),
      (emitChunks w chunks l c i).items
          = (emitChunks w chunks l c i).segs.map (segToItem w) ∧
      (emitChunks w chunks l c i).segs.map (fun sg => sg.id)
          = List.range' i (emitChunks w chunks l c i).segs.length ∧
      (emitChunks w chunks l c i).nextId
          = i + (emitChunks w chunks l c i).segs.length := by
  intro chunks
  induction chunks with
  | nil => intro l c i; exact ⟨rfl, rfl, rfl⟩
  | cons chunk rest ih =>
    intro l c i
    by_cases he : 0 < chunk.length
    · have h := ih (if rest = [] then l else l + 1)
        (if rest = [] then c + (chunk.length : Int) else 0) (i + 1)
      simp only [emitChunks, if_pos he]
      obtain ⟨h1, h2, h3⟩ := h
      refine ⟨?_, ?_, ?_⟩
      · simp only [List.map_append, h1, List.map_cons, List.map_nil, segToItem,
          previewOf]
      · simp only [List.map_append, List.map_cons, List.map_nil, h2,
          List.length_append, List.length_cons, List.length_nil,
          List.singleton_append, Nat.zero_add]
        rw [List.range'_succ]
      · simp only [h3, List.length_append, List.length_cons, List.length_nil]
        omega
    · have h := ih (if rest = [] then l else l + 1)
        (if rest = [] then c + (chunk.length : Int) else 0) i
      simp only [emitChunks, if_neg he]
      obtain ⟨h1, h2, h3⟩ := h
      refine ⟨?_, ?_, ?_⟩
      · simpa using h1
      · simpa using h2
      · simpa using h3

theorem emitChunks_mem_pos (w : Side) :
    ∀ (chunks : List (List Char)) (l c : Int) (i : Nat),
      ∀ sg ∈ (emitChunks w chunks l c i).segs,
        sg.startCol < sg.endCol ∧
        ((sg.line = l ∧ sg.startCol = c) ∨ (l < sg.line ∧ sg.startCol = 0)) := by
  intro chunks
  induction chunks with
  | nil => intro l c i sg h; simp [emitChunks] at h
  | cons chunk rest ih =>
    intro l c i sg h
    simp only [emitChunks, List.mem_append] at h
    rcases h with h | h
    · by_cases he : 0 < chunk.length
      · rw [if_pos he] at h
        simp only [List.mem_singleton] at h
        subst h
        refine ⟨?_, Or.inl ⟨rfl, rfl⟩⟩
        simp only
        have : (0 : Int) < (chunk.length : Int) := by exact_mod_cast he
        omega
      · rw [if_neg he] at h
        simp at h
    · by_cases hr : rest = []
      · subst hr
        simp [emitChunks] at h
      · have hrec := ih (if rest = [] then l else l + 1)
          (if rest = [] then c + (chunk.length : Int) else 0)
          (if 0 < chunk.length then i + 1 else i) sg h
        rw [if_neg hr, if_neg hr] at hrec
        refine ⟨hrec.1, Or.inr ?_⟩
        rcases hrec.2 with ⟨h1, h2⟩ | ⟨h1, h2⟩
        · exact ⟨by omega, h2⟩
        · exact ⟨by omega, h2⟩

theorem emitChunks_lines_lt (w : Side) :
    ∀ (chunks : List (List Char)) (l c : Int) (i : Nat),
      ((emitChunks w chunks l c i).segs).Pairwise (fun a b => a.line < b.line) := by
  intro chunks
  induction chunks with
  | nil => intro l c i; simp [emitChunks]
  | cons chunk rest ih =>
    intro l c i
    simp only [emitChunks]
    rw [List.pairwise_append]
    refine ⟨?_, ?_, ?_⟩
    · split <;> simp
    · exact ih _ _ _
    · intro a ha b hb
      by_cases he : 0 < chunk.length
      · rw [if_pos he] at ha
        simp only [List.mem_singleton] at ha
        subst ha
        by_cases hr : rest = []
        · subst hr; simp [emitChunks] at hb
        · have := emitChunks_mem_pos w rest
            (if rest = [] then l else l + 1)
            (if rest = [] then c + (chunk.length : Int) else 0)
            (if 0 < chunk.length then i + 1 else i) b hb
          rw [if_neg hr] at this
          simp only
          rcases this.2 with ⟨h1, _⟩ | ⟨h1, _⟩ <;> omega
      · rw [if_neg he] at ha
        simp at ha

theorem emitChunks_final (w : Side) :
    ∀ (chunks : List (List Char)) (l c : Int) (i : Nat), chunks ≠ [] →
      (emitChunks w chunks l c i).line = l + ((chunks.length : Int) - 1) ∧
      (emitChunks w chunks l c i).col
        = (if chunks.length = 1 then c + (((chunks.headD []).length : Int))
           else (((chunks.getLastD []).length : Int))) := by
  intro chunks
  induction chunks with
  | nil => intro l c i h; exact absurd rfl h
  | cons chunk rest ih =>
    intro l c i _
    by_cases hr : rest = []
    · subst hr
      simp [emitChunks]
    · have hih := ih (l + 1) 0 (if 0 < chunk.length then i + 1 else i) hr
      simp only [emitChunks, if_neg hr]
      have hlen : rest.length ≠ 0 := by
        intro h0; exact hr (List.length_eq_zero.mp h0)
      constructor
      · rw [hih.1]
        simp only [List.length_cons]
        push_cast
        omega
      · rw [hih.2]
        have hcons : (chunk :: rest).length ≠ 1 := by
          simp only [List.length_cons]; omega
        rw [if_neg hcons]
        by_cases h1 : rest.length = 1
        · rw [if_pos h1]
          obtain ⟨q, hq⟩ := List.length_eq_one.mp h1
          subst hq
          simp [List.getLastD_cons]
        · rw [if_neg h1]
          rw [List.getLastD_cons]
          rw [getLastD_of_ne_nil hr ([] : List Char) chunk]

theorem addSegments_items (w : Side) (text : List Char) (base : Cursor) (i : Nat) :
    (addSegmentsForText w text base i).items
      = (addSegmentsForText w text base i).segs.map (segToItem w) :=
  (emitChunks_spec w (splitNl text) base.line base.col i).1

theorem addSegments_ids (w : Side) (text : List Char) (base : Cursor) (i : Nat) :
    (addSegmentsForText w text base i).segs.map (fun sg => sg.id)
      = List.range' i (addSegmentsForText w text base i).segs.length :=
  (emitChunks_spec w (splitNl text) base.line base.col i).2.1

theorem addSegments_nextId (w : Side) (text : List Char) (base : Cursor) (i : Nat) :
    (addSegmentsForText w text base i).nextId
      = i + (addSegmentsForText w text base i).segs.length :=
  (emitChunks_spec w (splitNl text) base.line base.col i).2.2

theorem addSegments_id_bounds (w : Side) (text : List Char) (base : Cursor) (i : Nat) :
    ∀ sg ∈ (addSegmentsForText w text base i).segs,
      i ≤ sg.id ∧ sg.id < (addSegmentsForText w text base i).nextId := by
  intro sg hsg
  have hid : sg.id ∈ (addSegmentsForText w text base i).segs.map (fun sg => sg.id) :=
    List.mem_map.mpr ⟨sg, hsg, rfl⟩
  rw [addSegments_ids] at hid
  have hmem := List.mem_range'_1.mp hid
  rw [addSegments_nextId]
  omega

theorem addSegments_pos (w : Side) (text : List Char) (base : Cursor) (i : Nat) :
    ∀ sg ∈ (addSegmentsForText w text base i).segs,
      sg.startCol < sg.endCol ∧
      ((sg.line = base.line ∧ sg.startCol = base.col) ∨
       (base.line < sg.line ∧ sg.startCol = 0)) :=
  emitChunks_mem_pos w (splitNl text) base.line base.col i

theorem advanceCursor_line_le (cur : Cursor) (text : List Char) :
    cur.line ≤ (advanceCursor cur text).line := by
  unfold advanceCursor
  by_cases h : (splitNl text).length = 1
  · rw [if_pos h]
  · rw [if_neg h]
    simp only
    have h1 : 1 ≤ (splitNl text).length := by
      cases hsp : splitNl text with
      | nil => exact absurd hsp (splitNl_ne_nil text)
      | cons a t => simp
    have h2 : (1 : Int) ≤ ((splitNl text).length : Int) := by exact_mod_cast h1
    omega

theorem addSegments_cursor (w : Side) (text : List Char) (base : Cursor) (i : Nat) :
    Cursor.mk (addSegmentsForText w text base i).line
        (addSegmentsForText w text base i).col = advanceCursor base text := by
  have hne := splitNl_ne_nil text
  have hfin := emitChunks_final w (splitNl text) base.line base.col i hne
  unfold addSegmentsForText at *
  unfold advanceCursor
  by_cases h1 : (splitNl text).length = 1
  · obtain ⟨p, hp⟩ := List.length_eq_one.mp h1
    have hpt : p = text := splitNl_singleton hp
    rw [if_pos h1, hfin.1, hfin.2, if_pos h1, h1, hp]
    simp [hpt]
  · rw [if_neg h1, hfin.1, hfin.2, if_neg h1]

theorem range'_glue (m n : Nat) :
    List.range' 1 m ++ List.range' (1 + m) n = List.range' 1 (m + n) := by
  have hap := List.range'_append 1 m n 1
  simp only [one_mul] at hap
  rw [hap, Nat.add_comm]

theorem stepDiff_inv {s : CompareState} (op : DiffOp) (h : SInv s) :
    SInv (stepDiff s op) := by
  cases op with
  | delete text =>
    have hitems := addSegments_items Side.A text s.cursorA s.diffId
    have hids := addSegments_ids Side.A text s.cursorA s.diffId
    have hnext := addSegments_nextId Side.A text s.cursorA s.diffId
    have hbnd := addSegments_id_bounds Side.A text s.cursorA s.diffId
    have hpos := addSegments_pos Side.A text s.cursorA s.diffId
    simp only [stepDiff]
    refine ⟨?_, ?_, ?_, ?_, ?_, ?_, ?_, ?_, ?_, ?_, ?_, ?_, ?_⟩
    · simp only [List.map_append, h.items_ids, hitems, List.map_map,
        List.length_append, List.length_map]
      have hcomp : ((fun it => it.id) ∘ segToItem Side.A)
          = (fun sg : DifferenceSegment => sg.id) := rfl
      rw [hcomp, hids, h.diffId_eq]
      exact range'_glue _ _
    · dsimp only
      rw [hnext, List.length_append, hitems, List.length_map, h.diffId_eq]
      omega
    · rw [List.map_append, List.pairwise_append]
      refine ⟨h.idsA, ?_, ?_⟩
      · rw [hids]; exact List.pairwise_lt_range' _ _
      · intro a ha b hb
        obtain ⟨sa, hsa, rfl⟩ := List.mem_map.mp ha
        obtain ⟨sb, hsb, rfl⟩ := List.mem_map.mp hb
        have h1 := (h.boundA sa hsa).2
        have h2 := (hbnd sb hsb).1
        omega
    · exact h.idsB
    · dsimp only
      intro sg hsg
      have hd : s.diffId ≤ (addSegmentsForText Side.A text s.cursorA s.diffId).nextId := by
        rw [hnext]; omega
      rcases List.mem_append.mp hsg with hold | hnew
      · have := h.boundA sg hold
        omega
      · have h1 := hbnd sg hnew
        have h2 : 1 ≤ s.diffId := by rw [h.diffId_eq]; omega
        omega
    · dsimp only
      intro sg hsg
      have := h.boundB sg hsg
      have hd : s.diffId ≤ (addSegmentsForText Side.A text s.cursorA s.diffId).nextId := by
        rw [hnext]; omega
      omega
    · intro a ha b hb
      rcases List.mem_append.mp ha with hold | hnew
      · exact h.crossAB a hold b hb
      · have h1 := (hbnd a hnew).1
        have h2 := (h.boundB b hb).2
        omega
    · exact le_trans h.curA (advanceCursor_line_le _ _)
    · exact h.curB
    · intro sg hsg
      rcases List.mem_append.mp hsg with hold | hnew
      · exact h.posA sg hold
      · have hp := hpos sg hnew
        refine ⟨hp.1, ?_⟩
        have := h.curA
        rcases hp.2 with ⟨h1, _⟩ | ⟨h1, _⟩ <;> omega
    · exact h.posB
    · intro sg hsg
      rcases List.mem_append.mp hsg with hold | hnew
      · exact List.mem_append_left _ (h.itemA sg hold)
      · refine List.mem_append_right _ ?_
        rw [hitems]
        exact List.mem_map.mpr ⟨sg, hnew, rfl⟩
    · intro sg hsg
      exact List.mem_append_left _ (h.itemB sg hsg)
  | insert text =>
    have hitems := addSegments_items Side.B text s.cursorB s.diffId
    have hids := addSegments_ids Side.B text s.cursorB s.diffId
    have hnext := addSegments_nextId Side.B text s.cursorB s.diffId
    have hbnd := addSegments_id_bounds Side.B text s.cursorB s.diffId
    have hpos := addSegments_pos Side.B text s.cursorB s.diffId
    simp only [stepDiff]
    refine ⟨?_, ?_, ?_, ?_, ?_, ?_, ?_, ?_, ?_, ?_, ?_, ?_, ?_⟩
    · simp only [List.map_append, h.items_ids, hitems, List.map_map,
        List.length_append, List.length_map]
      have hcomp : ((fun it => it.id) ∘ segToItem Side.B)
          = (fun sg : DifferenceSegment => sg.id) := rfl
      rw [hcomp, hids, h.diffId_eq]
      exact range'_glue _ _
    · dsimp only
      rw [hnext, List.length_append, hitems, List.length_map, h.diffId_eq]
      omega
    · exact h.idsA
    · rw [List.map_append, List.pairwise_append]
      refine ⟨h.idsB, ?_, ?_⟩
      · rw [hids]; exact List.pairwise_lt_range' _ _
      · intro a ha b hb
        obtain ⟨sa, hsa, rfl⟩ := List.mem_map.mp ha
        obtain ⟨sb, hsb, rfl⟩ := List.mem_map.mp hb
        have h1 := (h.boundB sa hsa).2
        have h2 := (hbnd sb hsb).1
        omega
    · dsimp only
      intro sg hsg
      have := h.boundA sg hsg
      have hd : s.diffId ≤ (addSegmentsForText Side.B text s.cursorB s.diffId).nextId := by
        rw [hnext]; omega
      omega
    · dsimp only
      intro sg hsg
      have hd : s.diffId ≤ (addSegmentsForText Side.B text s.cursorB s.diffId).nextId := by
        rw [hnext]; omega
      rcases List.mem_append.mp hsg with hold | hnew
      · have := h.boundB sg hold
        omega
      · have h1 := hbnd sg hnew
        have h2 : 1 ≤ s.diffId := by rw [h.diffId_eq]; omega
        omega
    · intro a ha b hb
      rcases List.mem_append.mp hb with hold | hnew
      · exact h.crossAB a ha b hold
      · have h1 := (hbnd b hnew).1
        have h2 := (h.boundA a ha).2
        omega
    · exact h.curA
    · exact le_trans h.curB (advanceCursor_line_le _ _)
    · exact h.posA
    · intro sg hsg
      rcases List.mem_append.mp hsg with hold | hnew
      · exact h.posB sg hold
      · have hp := hpos sg hnew
        refine ⟨hp.1, ?_⟩
        have := h.curB
        rcases hp.2 with ⟨h1, _⟩ | ⟨h1, _⟩ <;> omega
    · intro sg hsg
      exact List.mem_append_left _ (h.itemA sg hsg)
    · intro sg hsg
      rcases List.mem_append.mp hsg with hold | hnew
      · exact List.mem_append_left _ (h.itemB sg hold)
      · refine List.mem_append_right _ ?_
        rw [hitems]
        exact List.mem_map.mpr ⟨sg, hnew, rfl⟩
  | equal text =>
    simp only [stepDiff]
    exact ⟨h.items_ids, h.diffId_eq, h.idsA, h.idsB, h.boundA, h.boundB, h.crossAB,
      le_trans h.curA (advanceCursor_line_le _ _),
      le_trans h.curB (advanceCursor_line_le _ _),
      h.posA, h.posB, h.itemA, h.itemB⟩

theorem segmentDiffs_inv (ops : List DiffOp) : SInv (segmentDiffs ops) := by
  have hinit : SInv initCompareState := by
    refine ⟨?_, ?_, ?_, ?_, ?_, ?_, ?_, ?_, ?_, ?_, ?_, ?_, ?_⟩ <;>
      simp [initCompareState]
  suffices hfold : ∀ (l : List DiffOp) (st : CompareState), SInv st → SInv (l.foldl stepDiff st) by
    exact hfold ops initCompareState hinit
  intro l
  induction l with
  | nil => intro st hst; exact hst
  | cons op rest ih => intro st hst; exact ih _ (stepDiff_inv op hst)

/-! ## Claim theorems about the segmenter -/

/-- C1: for every diff sequence, the report items carry the ids
`1, 2, ...` in traversal (push) order, each side's segment ids are
strictly increasing in order, the ids of `segmentsA ++ segmentsB` are
globally unique, and every id is at least 1. -/
theorem segment_ids_monotone_unique (ops : List DiffOp) :
    (segmentDiffs ops).diffItems.map (fun it => it.id)
        = List.range' 1 (segmentDiffs ops).diffItems.length ∧
    ((segmentDiffs ops).diffsA.map (fun sg => sg.id)).Pairwise (· < ·) ∧
    ((segmentDiffs ops).diffsB.map (fun sg => sg.id)).Pairwise (· < ·) ∧
    (((segmentDiffs ops).diffsA ++ (segmentDiffs ops).diffsB).map
        (fun sg => sg.id)).Nodup ∧
    ∀ sg ∈ (segmentDiffs ops).diffsA ++ (segmentDiffs ops).diffsB, 1 ≤ sg.id := by
  have h := segmentDiffs_inv ops
  refine ⟨h.items_ids, h.idsA, h.idsB, ?_, ?_⟩
  · rw [List.map_append]
    rw [List.nodup_append]
    refine ⟨h.idsA.imp Nat.ne_of_lt, h.idsB.imp Nat.ne_of_lt, ?_⟩
    intro x hx hx'
    obtain ⟨sa, hsa, rfl⟩ := List.mem_map.mp hx
    obtain ⟨sb, hsb, hab⟩ := List.mem_map.mp hx'
    exact h.crossAB sa hsa sb hsb hab.symm
  · intro sg hsg
    rcases List.mem_append.mp hsg with h1 | h1
    · exact (h.boundA sg h1).1
    · exact (h.boundB sg h1).1

/-- Witness for C1 at a concrete one-op diff. -/
theorem segment_ids_monotone_unique_witness :
    (⟨1, SegType.deletion, 0, 0, 2, ['a', 'b']⟩ : DifferenceSegment)
        ∈ (segmentDiffs [DiffOp.delete ['a', 'b']]).diffsA
            ++ (segmentDiffs [DiffOp.delete ['a', 'b']]).diffsB ∧
    1 ≤ (⟨1, SegType.deletion, 0, 0, 2, ['a', 'b']⟩ : DifferenceSegment).id :=
  ⟨by decide,
   (segment_ids_monotone_unique [DiffOp.delete ['a', 'b']]).2.2.2.2 _ (by decide)⟩

/-- C2: every segment the segmenter produces, on either side, has
`startCol < endCol` (no zero-length runs) and a non-negative line. -/
theorem segment_extent_positive (ops : List DiffOp) :
    ∀ sg ∈ (segmentDiffs ops).diffsA ++ (segmentDiffs ops).diffsB,
      sg.startCol < sg.endCol ∧ 0 ≤ sg.line := by
  have h := segmentDiffs_inv ops
  intro sg hsg
  rcases List.mem_append.mp hsg with h1 | h1
  · exact h.posA sg h1
  · exact h.posB sg h1

/-- Witness for C2 at a concrete one-op diff. -/
theorem segment_extent_positive_witness :
    (⟨1, SegType.deletion, 0, 0, 2, ['a', 'b']⟩ : DifferenceSegment).startCol
        < (⟨1, SegType.deletion, 0, 0, 2, ['a', 'b']⟩ : DifferenceSegment).endCol ∧
    0 ≤ (⟨1, SegType.deletion, 0, 0, 2, ['a', 'b']⟩ : DifferenceSegment).line :=
  segment_extent_positive [DiffOp.delete ['a', 'b']] _ (by decide)

/-- C3: the local (line, col) position maintained by the emission loop of
`addSegmentsForText` ends exactly where `advanceCursor` lands when
advanced over the same text from the same starting cursor. -/
theorem emission_position_matches_advanceCursor (w : Side) (text : List Char)
    (base : Cursor) (i : Nat) :
    Cursor.mk (addSegmentsForText w text base i).line
        (addSegmentsForText w text base i).col
      = advanceCursor base text :=
  addSegments_cursor w text base i

/-- C6: a multi-line insert/delete run is split into at most one segment
per line it touches (segment lines are strictly increasing, hence
distinct), and every segment on a line after the starting line of the
run starts at column 0. -/
theorem multiline_run_split_per_line (w : Side) (text : List Char)
    (base : Cursor) (i : Nat) :
    ((addSegmentsForText w text base i).segs.map (fun sg => sg.line)).Pairwise (· < ·) ∧
    ∀ sg ∈ (addSegmentsForText w text base i).segs,
      base.line < sg.line → sg.startCol = 0 := by
  constructor
  · exact List.pairwise_map.mpr
      (emitChunks_lines_lt w (splitNl text) base.line base.col i)
  · intro sg hsg hlt
    have hp := addSegments_pos w text base i sg hsg
    rcases hp.2 with ⟨h1, _⟩ | ⟨_, h2⟩
    · omega
    · exact h2

/-- Witness for C6 at a concrete two-line deletion. -/
theorem multiline_run_split_per_line_witness :
    (0 : Int)
        < (⟨2, SegType.deletion, 1, 0, 2, ['c', 'd']⟩ : DifferenceSegment).line ∧
    (⟨2, SegType.deletion, 1, 0, 2, ['c', 'd']⟩ : DifferenceSegment).startCol = 0 :=
  ⟨by decide,
   (multiline_run_split_per_line Side.A ['a', 'b', '\n', 'c', 'd'] ⟨0, 0⟩ 1).2 _
     (by decide) (by decide)⟩

/-! ## Renderer lemmas -/

theorem slice_glue (L : List Char) (a b : Nat) (hab : a ≤ b) :
    L.take a ++ ((L.drop a).take (b - a) ++ L.drop b) = L := by
  have h3 := List.take_append_drop (b - a) (L.drop a)
  rw [List.drop_drop] at h3
  rw [show a + (b - a) = b by omega] at h3
  rw [h3, List.take_append_drop]

theorem drop_take_rest (L : List Char) (b : Nat) :
    (L.drop b).take (L.length - b) = L.drop b := by
  rw [← List.length_drop, List.take_length]

theorem clampStart_le (len : Nat) (c : Int) : clampStart len c ≤ len := by
  unfold clampStart
  have h1 : min c (len : Int) ≤ (len : Int) := min_le_right _ _
  have h2 : max 0 (min c (len : Int)) ≤ (len : Int) :=
    max_le (by exact_mod_cast Nat.zero_le len) h1
  exact Int.toNat_le.mpr h2

theorem clampEnd_le (len start : Nat) (c : Int) (h : start ≤ len) :
    clampEnd len start c ≤ len := by
  unfold clampEnd
  have h1 : min c (len : Int) ≤ (len : Int) := min_le_right _ _
  have h2 : max (start : Int) (min c (len : Int)) ≤ (len : Int) :=
    max_le (by exact_mod_cast h) h1
  exact Int.toNat_le.mpr h2

theorem renderSeg_some (lineText : List Char) (acc : RenderAcc)
    (seg : DifferenceSegment) :
    ∃ acc', renderSeg lineText acc seg = some acc' ∧
      acc'.cursor ≤ lineText.length := by
  have hstart := clampStart_le lineText.length seg.startCol
  have hstop := clampEnd_le lineText.length (clampStart lineText.length seg.startCol)
    seg.endCol hstart
  simp only [renderSeg, sliceChecked]
  by_cases h1 : acc.cursor < clampStart lineText.length seg.startCol
  · rw [if_pos h1, if_pos (⟨le_of_lt h1, hstart⟩ : _ ∧ _)]
    simp only [Option.map_some']
    by_cases h2 : clampStart lineText.length seg.startCol
        < clampEnd lineText.length (clampStart lineText.length seg.startCol) seg.endCol
    · rw [if_pos h2, if_pos (⟨le_of_lt h2, hstop⟩ : _ ∧ _)]
      exact ⟨_, rfl, hstop⟩
    · rw [if_neg h2]
      exact ⟨_, rfl, hstop⟩
  · rw [if_neg h1]
    dsimp only
    by_cases h2 : clampStart lineText.length seg.startCol
        < clampEnd lineText.length (clampStart lineText.length seg.startCol) seg.endCol
    · rw [if_pos h2, if_pos (⟨le_of_lt h2, hstop⟩ : _ ∧ _)]
      exact ⟨_, rfl, hstop⟩
    · rw [if_neg h2]
      exact ⟨_, rfl, hstop⟩

theorem renderSegs_some (lineText : List Char) :
    ∀ (segs : List DifferenceSegment) (acc : RenderAcc),
      acc.cursor ≤ lineText.length →
      ∃ acc', renderSegs lineText segs acc = some acc' ∧
        acc'.cursor ≤ lineText.length := by
  intro segs
  induction segs with
  | nil => intro acc h; exact ⟨acc, rfl, h⟩
  | cons s ss ih =>
    intro acc h
    obtain ⟨acc1, h1, hc1⟩ := renderSeg_some lineText acc s
    obtain ⟨acc2, h2, hc2⟩ := ih acc1 hc1
    refine ⟨acc2, ?_, hc2⟩
    simp only [renderSegs]
    rw [h1]
    exact h2

theorem renderLine_some (lineText : List Char) (segs : List DifferenceSegment) :
    ∃ ps, renderLine lineText segs = some ps := by
  obtain ⟨acc, hacc, hc⟩ := renderSegs_some lineText segs ⟨[], 0⟩ (Nat.zero_le _)
  unfold renderLine
  rw [hacc]
  dsimp only
  by_cases h : acc.cursor < lineText.length
  · rw [if_pos h]
    unfold sliceChecked
    rw [if_pos (⟨le_of_lt h, le_refl _⟩ : _ ∧ _)]
    exact ⟨_, rfl⟩
  · rw [if_neg h]
    exact ⟨_, rfl⟩

theorem renderLinesFrom_some (diffs : List DifferenceSegment) :
    ∀ (ls : List (List Char)) (idx : Nat),
      ∃ pss, renderLinesFrom diffs ls idx = some pss := by
  intro ls
  induction ls with
  | nil => intro idx; exact ⟨[], rfl⟩
  | cons l rest ih =>
    intro idx
    obtain ⟨p, hp⟩ := renderLine_some l (segmentsForLine diffs idx)
    obtain ⟨ps, hps⟩ := ih (idx + 1)
    refine ⟨p :: ps, ?_⟩
    simp only [renderLinesFrom]
    rw [hp, hps]

theorem segmentsForLine_filter (diffs : List DifferenceSegment) (N idx : Nat)
    (hidx : idx < N) :
    segmentsForLine
        (diffs.filter (fun sg => decide (0 ≤ sg.line) && decide (sg.line < (N : Int))))
        idx
      = segmentsForLine diffs idx := by
  unfold segmentsForLine
  rw [List.filter_filter]
  congr 1
  apply List.filter_congr
  intro sg _
  by_cases h : sg.line = (idx : Int)
  · have h0 : (0 : Int) ≤ (idx : Int) := by exact_mod_cast Nat.zero_le idx
    have hN : (idx : Int) < (N : Int) := by exact_mod_cast hidx
    simp [h, h0, hN]
  · simp [h]

theorem renderLinesFrom_filter (diffs : List DifferenceSegment) (N : Nat) :
    ∀ (ls : List (List Char)) (idx : Nat), idx + ls.length ≤ N →
      renderLinesFrom
          (diffs.filter (fun sg => decide (0 ≤ sg.line) && decide (sg.line < (N : Int))))
          ls idx
        = renderLinesFrom diffs ls idx := by
  intro ls
  induction ls with
  | nil => intro idx _; rfl
  | cons l rest ih =>
    intro idx h
    simp only [List.length_cons] at h
    have hidx : idx < N := by omega
    simp only [renderLinesFrom]
    rw [segmentsForLine_filter diffs N idx hidx]
    rw [ih (idx + 1) (by omega)]

/-- C4: for a line with content `L` and a single segment with
`0 ≤ startCol < endCol ≤ L.length`, the concatenation of the emitted
plain and highlighted runs is exactly `L`. -/
theorem renderer_round_trip (L chunkText : List Char) (idn : Nat) (ty : SegType)
    (ln s e : Int) (h0 : 0 ≤ s) (hse : s < e) (hel : e ≤ (L.length : Int)) :
    ∃ ps, renderLine L [⟨idn, ty, ln, s, e, chunkText⟩] = some ps ∧
      piecesText ps = L := by
  have hsl : s ≤ (L.length : Int) := le_trans (le_of_lt hse) hel
  have hstart : clampStart L.length s = s.toNat := by
    unfold clampStart
    rw [min_eq_left hsl, max_eq_right h0]
  have hstop : clampEnd L.length s.toNat e = e.toNat := by
    unfold clampEnd
    rw [min_eq_left hel, Int.toNat_of_nonneg h0, max_eq_right (le_of_lt hse)]
  have ha : s.toNat ≤ L.length := by omega
  have hb : e.toNat ≤ L.length := by omega
  have hab : s.toNat < e.toNat := by omega
  by_cases hz : 0 < s.toNat
  · have hseg : renderSeg L ⟨[], 0⟩ ⟨idn, ty, ln, s, e, chunkText⟩
        = some ⟨[Piece.plain (L.take s.toNat),
                 Piece.highlight idn ty ((L.drop s.toNat).take (e.toNat - s.toNat))],
                e.toNat⟩ := by
      simp only [renderSeg, sliceChecked]
      rw [hstart, hstop]
      rw [if_pos hz, if_pos (⟨Nat.zero_le _, ha⟩ : _ ∧ _)]
      simp only [Option.map_some']
      rw [if_pos hab, if_pos (⟨le_of_lt hab, hb⟩ : _ ∧ _)]
      simp only [Option.map_some', List.drop_zero, Nat.sub_zero, List.nil_append,
        List.singleton_append]
    have hsegs : renderSegs L [(⟨idn, ty, ln, s, e, chunkText⟩ : DifferenceSegment)]
        ⟨[], 0⟩
        = some ⟨[Piece.plain (L.take s.toNat),
                 Piece.highlight idn ty ((L.drop s.toNat).take (e.toNat - s.toNat))],
                e.toNat⟩ := by
      simp only [renderSegs]
      rw [hseg]
    unfold renderLine
    rw [hsegs]
    dsimp only
    by_cases ht : e.toNat < L.length
    · rw [if_pos ht]
      unfold sliceChecked
      rw [if_pos (⟨le_of_lt ht, le_refl _⟩ : _ ∧ _)]
      simp only [Option.map_some']
      refine ⟨_, rfl, ?_⟩
      simp only [piecesText, pieceText, List.map_append, List.map_cons, List.map_nil,
        List.flatten_append, List.flatten_cons, List.flatten_nil, List.append_nil,
        List.append_assoc]
      rw [drop_take_rest]
      exact slice_glue L s.toNat e.toNat (le_of_lt hab)
    · rw [if_neg ht]
      refine ⟨_, rfl, ?_⟩
      have hbl : e.toNat = L.length := by omega
      simp only [piecesText, pieceText, List.map_cons, List.map_nil,
        List.flatten_cons, List.flatten_nil, List.append_nil]
      rw [hbl, drop_take_rest]
      exact List.take_append_drop _ _
  · have hseg : renderSeg L ⟨[], 0⟩ ⟨idn, ty, ln, s, e, chunkText⟩
        = some ⟨[Piece.highlight idn ty ((L.drop s.toNat).take (e.toNat - s.toNat))],
                e.toNat⟩ := by
      simp only [renderSeg, sliceChecked]
      rw [hstart, hstop]
      rw [if_neg hz]
      dsimp only
      rw [if_pos hab, if_pos (⟨le_of_lt hab, hb⟩ : _ ∧ _)]
      simp only [Option.map_some', List.nil_append]
    have hsegs : renderSegs L [(⟨idn, ty, ln, s, e, chunkText⟩ : DifferenceSegment)]
        ⟨[], 0⟩
        = some ⟨[Piece.highlight idn ty ((L.drop s.toNat).take (e.toNat - s.toNat))],
                e.toNat⟩ := by
      simp only [renderSegs]
      rw [hseg]
    have hz0 : s.toNat = 0 := by omega
    unfold renderLine
    rw [hsegs]
    dsimp only
    by_cases ht : e.toNat < L.length
    · rw [if_pos ht]
      unfold sliceChecked
      rw [if_pos (⟨le_of_lt ht, le_refl _⟩ : _ ∧ _)]
      simp only [Option.map_some']
      refine ⟨_, rfl, ?_⟩
      simp only [piecesText, pieceText, List.map_append, List.map_cons, List.map_nil,
        List.flatten_append, List.flatten_cons, List.flatten_nil, List.append_nil,
        hz0, List.drop_zero, Nat.sub_zero]
      rw [drop_take_rest]
      exact List.take_append_drop _ _
    · rw [if_neg ht]
      refine ⟨_, rfl, ?_⟩
      have hbl : e.toNat = L.length := by omega
      simp only [piecesText, pieceText, List.map_cons, List.map_nil,
        List.flatten_cons, List.flatten_nil, List.append_nil, hz0, List.drop_zero,
        Nat.sub_zero, hbl]
      exact List.take_length L

/-- Witness for C4 on the line `"hello"` with segment columns 1–3. -/
theorem renderer_round_trip_witness :
    (0 : Int) ≤ 1 ∧ (1 : Int) < 3 ∧ (3 : Int) ≤ (("hello".toList).length : Int) ∧
    ∃ ps, renderLine ("hello".toList)
        [⟨1, SegType.addition, 0, 1, 3, ['e', 'l']⟩] = some ps ∧
      piecesText ps = "hello".toList :=
  ⟨by decide, by decide, by decide,
   renderer_round_trip ("hello".toList) ['e', 'l'] 1 SegType.addition 0 1 3
     (by decide) (by decide) (by decide)⟩

/-- C5: the renderer is total — every string slice's bound check
succeeds, for arbitrary (even malformed) segment lists — and segments
whose line index falls outside the document's lines contribute nothing
to the output. -/
theorem renderer_safe_and_drops_invalid (content : List Char)
    (diffs : List DifferenceSegment) :
    (renderDocument content diffs).isSome ∧
    renderDocument content
        (diffs.filter (fun sg =>
          decide (0 ≤ sg.line) && decide (sg.line < ((splitNl content).length : Int))))
      = renderDocument content diffs := by
  constructor
  · obtain ⟨pss, h⟩ := renderLinesFrom_some diffs (splitNl content) 0
    unfold renderDocument
    rw [h]
    rfl
  · unfold renderDocument
    exact renderLinesFrom_filter diffs (splitNl content).length (splitNl content) 0
      (by omega)

/-! ## Claim theorems about the comparator entry point and helpers -/

/-- C7: if either content is empty, `performComparison` leaves the prior
component state unchanged, the result does not depend on the diff
capability (which is therefore never consulted), and from the initial
empty state the results stay empty. -/
theorem empty_content_comparison_noop
    (diffFn diffFn' : List Char → List Char → List DiffOp)
    (contentA contentB : List Char) (prior : ComparatorState)
    (h : contentA = [] ∨ contentB = []) :
    performComparison diffFn contentA contentB prior = prior ∧
    performComparison diffFn contentA contentB prior
      = performComparison diffFn' contentA contentB prior ∧
    performComparison diffFn contentA contentB emptyComparatorState
      = emptyComparatorState := by
  unfold performComparison
  rw [if_pos h, if_pos h, if_pos h]
  exact ⟨rfl, rfl, rfl⟩

/-- Witness for C7 with an empty document A and a non-trivial prior state. -/
theorem empty_content_comparison_noop_witness :
    performComparison (fun _ _ => [DiffOp.equal ['x']]) [] ['x']
        ⟨[⟨7, SegType.addition, [], ['x'], 1, 1⟩], [], []⟩
      = ⟨[⟨7, SegType.addition, [], ['x'], 1, 1⟩], [], []⟩ :=
  (empty_content_comparison_noop (fun _ _ => [DiffOp.equal ['x']])
    (fun _ _ => []) [] ['x'] _ (Or.inl rfl)).1

/-- C8 counterexample: a file whose extension is neither txt, docx, doc
(nor pdf) — here `a.md` — yields the empty string, not the fixed
placeholder, contradicting the claim that every unsupported extension
yields the placeholder. -/
theorem unsupported_extension_placeholder_counterexample :
    readFileContent ("a.md".toList) ("raw".toList) ("extracted".toList) = [] ∧
    readFileContent ("a.md".toList) ("raw".toList) ("extracted".toList)
      ≠ unsupportedPlaceholder := by
  constructor
  · rfl
  · intro h
    rw [show readFileContent ("a.md".toList) ("raw".toList) ("extracted".toList)
        = [] from rfl] at h
    exact absurd h.symm (by decide)

/-- C8 amended: for a file whose extension is not txt, docx or doc,
text extraction returns the fixed placeholder exactly when the extension
is pdf, and the empty string otherwise. -/
theorem unrecognized_extension_content (name rawText extractedText : List Char)
    (h1 : fileExtension name ≠ "txt".toList)
    (h2 : fileExtension name ≠ "docx".toList)
    (h3 : fileExtension name ≠ "doc".toList) :
    readFileContent name rawText extractedText
      = if fileExtension name = "pdf".toList then unsupportedPlaceholder
        else [] := by
  unfold readFileContent
  rw [if_neg h1, if_neg (not_or.mpr ⟨h2, h3⟩)]

/-- Witness for C8's amended claim at a pdf file. -/
theorem unrecognized_extension_content_witness :
    (fileExtension ("b.pdf".toList) ≠ "txt".toList ∧
     fileExtension ("b.pdf".toList) ≠ "docx".toList ∧
     fileExtension ("b.pdf".toList) ≠ "doc".toList) ∧
    readFileContent ("b.pdf".toList) ("raw".toList) ("extracted".toList)
      = (if fileExtension ("b.pdf".toList) = "pdf".toList then unsupportedPlaceholder
         else []) :=
  ⟨⟨by decide, by decide, by decide⟩,
   unrecognized_extension_content ("b.pdf".toList) ("raw".toList) ("extracted".toList)
     (by decide) (by decide) (by decide)⟩

/-- C9: the report item paired (by id) with an emitted segment carries,
on the emitting side, the first 50 characters of the run with the
ellipsis marker appended exactly when the run exceeds 50 characters;
and a single 60-character insert yields exactly one addition segment of
length 60 whose preview is 50 characters plus the ellipsis marker. -/
theorem report_preview_truncation (ops : List DiffOp) :
    (∀ sg ∈ (segmentDiffs ops).diffsA, ∀ it ∈ (segmentDiffs ops).diffItems,
        it.id = sg.id →
        it.textA = sg.text.take 50
          ++ (if 50 < sg.text.length then ellipsisMarker else [])) ∧
    (∀ sg ∈ (segmentDiffs ops).diffsB, ∀ it ∈ (segmentDiffs ops).diffItems,
        it.id = sg.id →
        it.textB = sg.text.take 50
          ++ (if 50 < sg.text.length then ellipsisMarker else [])) ∧
    (segmentDiffs [DiffOp.insert (List.replicate 60 'a')]).diffsB.map
        (fun sg => (sg.type, sg.text.length)) = [(SegType.addition, 60)] ∧
    (segmentDiffs [DiffOp.insert (List.replicate 60 'a')]).diffItems.map
        (fun it => it.textB) = [List.replicate 50 'a' ++ ellipsisMarker] := by
  have h := segmentDiffs_inv ops
  have hnodup : ((segmentDiffs ops).diffItems.map (fun it => it.id)).Nodup := by
    rw [h.items_ids]; exact List.nodup_range' _ _
  refine ⟨?_, ?_, by decide, by decide⟩
  · intro sg hsg it hit hid
    have hmem := h.itemA sg hsg
    have heq : it = segToItem Side.A sg :=
      List.inj_on_of_nodup_map hnodup hit hmem (by simpa using hid)
    rw [heq]
    simp [segToItem, previewOf]
  · intro sg hsg it hit hid
    have hmem := h.itemB sg hsg
    have heq : it = segToItem Side.B sg :=
      List.inj_on_of_nodup_map hnodup hit hmem (by simpa using hid)
    rw [heq]
    simp [segToItem, previewOf]

/-- Witness for C9 at a concrete one-op deletion. -/
theorem report_preview_truncation_witness :
    (⟨1, SegType.deletion, ['x'], [], 1, 1⟩ : DiffItem).textA
      = (['x'] : List Char).take 50
        ++ (if 50 < (['x'] : List Char).length then ellipsisMarker else []) := by
  have h := (report_preview_truncation [DiffOp.delete ['x']]).1
    (⟨1, SegType.deletion, 0, 0, 1, ['x']⟩ : DifferenceSegment) (by decide)
    (⟨1, SegType.deletion, ['x'], [], 1, 1⟩ : DiffItem) (by decide) (by decide)
  exact h

/-- C10: the comparison key is not injective in the contents — two
distinct contents with equal metadata, equal length and equal first 32
characters yield the same `compareKey`, so the recomputation guard does
not fire for a change past the 32-character prefix. -/
theorem compareKey_not_injective :
    List.replicate 33 'a' ≠ List.replicate 32 'a' ++ ['b'] ∧
    (List.replicate 33 'a').length = (List.replicate 32 'a' ++ ['b']).length ∧
    (List.replicate 33 'a').take 32 = (List.replicate 32 'a' ++ ['b']).take 32 ∧
    compareKey (some ⟨"a.txt".toList, 33, 1000⟩) (some ⟨"b.txt".toList, 1, 1000⟩)
        (List.replicate 33 'a') ['b']
      = compareKey (some ⟨"a.txt".toList, 33, 1000⟩) (some ⟨"b.txt".toList, 1, 1000⟩)
        (List.replicate 32 'a' ++ ['b']) ['b'] ∧
    triggersRecomputation
        (compareKey (some ⟨"a.txt".toList, 33, 1000⟩) (some ⟨"b.txt".toList, 1, 1000⟩)
          (List.replicate 33 'a') ['b'])
        (compareKey (some ⟨"a.txt".toList, 33, 1000⟩) (some ⟨"b.txt".toList, 1, 1000⟩)
          (List.replicate 32 'a' ++ ['b']) ['b'])
      = false := by
  refine ⟨by decide, by decide, by decide, by decide, by decide⟩

end Wdct
